import Mathlib

/-!
Verification of the bert-as-service broker core
(`src/server/bert_serving/server/__init__.py`).

The development shallowly embeds the three-role messaging pipeline:

* the Ventilator (`BertServer.run`, lines 256-298): request intake,
  job registration, batch partitioning and chunk dispatch;
* the Sink (`BertSink.run`, lines 316-384): the three job tables
  (`pending_checksum`, `pending_result`, `job_checksum`), the worker-output
  handler with its completion scan, and the control-channel handler;
* the shared tensor framing helper (`send_ndarray`, lines 499-502).

Modelling conventions:

* Byte strings are `List Nat` (one `Nat` per byte).  The ASCII sentinels
  `#` (35) and `@` (64) and the decimal rendering `b'%d' % n` are modelled
  at byte level, so that the `split` / `int()` round trips of the source are
  real proofs, not assumptions.
* A tensor is a list of rows (`List Row`); `X.shape[0]` is the list length,
  `np.concatenate(_, axis=0)` is list append/flatten.  Serialization between
  an ndarray and its `(header_json, raw_bytes)` wire form is treated as the
  identity on well-formed pairs (numpy `frombuffer`/`reshape` of a
  `send_ndarray`-produced pair reconstructs the array exactly); the JSON
  header itself is kept as a structured `{dtype, shape}` record.
* Python dicts are association lists: lookup takes the first (unique) hit,
  updates rewrite in place, new keys append at the end, `defaultdict`
  reads use the default.  `dict.pop` on the delivery path always hits an
  existing (or defaultdict-materialized) key, so it is modelled as total
  erasure.
* Uncaught Python exceptions inside the Sink loop (`KeyError` from the plain
  dict `job_checksum`, `ValueError` from destructuring `split(b'#')`) are
  modelled with `Except`: an `.error` result is a crash of the Sink loop.
* The Ventilator loop catches `ValueError` (wrong frame count, undecodable
  payload, non-numeric request id in the `int(req_id)` log calls); a caught
  error is a dropped request, reported by the `ok := false` flag.
-/

/-! ### Byte strings and the decimal codec -/

/-- A byte string, one `Nat` per byte. -/
abbrev Bytes := List Nat

/-- ASCII `#`, the JobId separator. -/
def hashB : Nat := 35

/-- ASCII `@`, the chunk-offset separator. -/
def atB : Nat := 64

/-- ASCII bytes of the `SHOW_CONFIG` sentinel. -/
def showConfigB : Bytes := [83, 72, 79, 87, 95, 67, 79, 78, 70, 73, 71]

/-- ASCII bytes of the `REGISTER` (new-job) sentinel. -/
def registerB : Bytes := [82, 69, 71, 73, 83, 84, 69, 82]

/-- Fuel-driven decimal rendering, most significant digit first
(`b'%d' % n`). -/
def natToBytesGo : Nat → Nat → Bytes
  | 0, _ => []
  | fuel + 1, n =>
    if n < 10 then [n + 48] else natToBytesGo fuel (n / 10) ++ [n % 10 + 48]

/-- Decimal ASCII rendering of a natural number, `b'%d' % n` in the source. -/
def natToBytes (n : Nat) : Bytes := natToBytesGo (n + 1) n

/-- Python `int()` on a decimal ASCII byte string. -/
def bytesToNat (b : Bytes) : Nat := b.foldl (fun a d => a * 10 + (d - 48)) 0

/-- ASCII whitespace bytes stripped by Python `int()` around a bytes
literal: space, `\t`, `\n`, `\v`, `\f`, `\r`. -/
def isWsB (c : Nat) : Bool :=
  c = 32 || c = 9 || c = 10 || c = 11 || c = 12 || c = 13

/-- ASCII decimal digit. -/
def isDigitB (c : Nat) : Bool := decide (48 ≤ c ∧ c ≤ 57)

/-- Strip ASCII whitespace from both ends of a byte string. -/
def stripWs (b : Bytes) : Bytes :=
  ((b.dropWhile isWsB).reverse.dropWhile isWsB).reverse

/-- Drop one optional leading sign byte (`+` 43 or `-` 45). -/
def dropSign : Bytes → Bytes
  | c :: rest => if c = 43 || c = 45 then rest else c :: rest
  | [] => []

/-- Continuation of a digit run with PEP 515 underscores: every
underscore (95) must be directly followed by a digit, all other bytes
must be digits. -/
def digitGroups : Bytes → Bool
  | [] => true
  | 95 :: d :: rest => isDigitB d && digitGroups rest
  | 95 :: [] => false
  | c :: rest => isDigitB c && digitGroups rest

/-- `isPyInt b` holds exactly when Python `int(b)` succeeds on the byte
string `b`: optional surrounding ASCII whitespace, one optional sign,
then digits with single underscores allowed between digits. -/
def isPyInt (b : Bytes) : Bool :=
  match dropSign (stripWs b) with
  | [] => false
  | c :: rest => isDigitB c && digitGroups rest

theorem bytesToNat_append_digit (xs : Bytes) (d : Nat) :
    bytesToNat (xs ++ [d]) = bytesToNat xs * 10 + (d - 48) := by
  simp [bytesToNat, List.foldl_append]

theorem bytesToNat_natToBytesGo (fuel n : Nat) (h : n < fuel) :
    bytesToNat (natToBytesGo fuel n) = n := by
  induction fuel generalizing n with
  | zero => omega
  | succ fuel ih =>
    rw [natToBytesGo]
    by_cases h10 : n < 10
    · simp [h10, bytesToNat]
    · have hdiv : n / 10 < fuel := by
        have : n / 10 < n := Nat.div_lt_self (by omega) (by omega)
        omega
      simp only [h10, if_false]
      rw [bytesToNat_append_digit, ih _ hdiv]
      omega

/-- The decimal codec round trip: `int(b'%d' % n) = n`. -/
theorem bytesToNat_natToBytes (n : Nat) : bytesToNat (natToBytes n) = n :=
  bytesToNat_natToBytesGo (n + 1) n (Nat.lt_succ_self n)

theorem natToBytesGo_digits (fuel n : Nat) :
    ∀ d ∈ natToBytesGo fuel n, 48 ≤ d ∧ d ≤ 57 := by
  induction fuel generalizing n with
  | zero => intro d hd; simp [natToBytesGo] at hd
  | succ fuel ih =>
    intro d hd
    rw [natToBytesGo] at hd
    by_cases h10 : n < 10
    · simp [h10] at hd; omega
    · simp only [h10, if_false, List.mem_append, List.mem_singleton] at hd
      rcases hd with hd | hd
      · exact ih _ d hd
      · have : n % 10 < 10 := Nat.mod_lt _ (by omega)
        omega

theorem natToBytes_digits (n : Nat) : ∀ d ∈ natToBytes n, 48 ≤ d ∧ d ≤ 57 :=
  natToBytesGo_digits (n + 1) n

theorem hashB_not_mem_natToBytes (n : Nat) : hashB ∉ natToBytes n := by
  intro h
  have := natToBytes_digits n hashB h
  simp [hashB] at this

theorem atB_not_mem_natToBytes (n : Nat) : atB ∉ natToBytes n := by
  intro h
  have := natToBytes_digits n atB h
  simp [atB] at this

/-! ### Splitting at a separator byte (Python `bytes.split`) -/

/-- Python `s.split(sep)` for a single-byte separator: splits at every
occurrence; the empty string yields `[b'']`. -/
def bsplit (sep : Nat) : Bytes → List Bytes
  | [] => [[]]
  | b :: rest =>
    if b = sep then [] :: bsplit sep rest
    else
      match bsplit sep rest with
      | [] => [[b]]
      | s :: ss => (b :: s) :: ss

theorem bsplit_ne_nil (sep : Nat) (l : Bytes) : bsplit sep l ≠ [] := by
  induction l with
  | nil => simp [bsplit]
  | cons b rest ih =>
    rw [bsplit]
    by_cases hb : b = sep
    · simp [hb]
    · simp only [hb, if_false]
      cases hrest : bsplit sep rest with
      | nil => simp
      | cons s ss => simp

theorem bsplit_not_mem (sep : Nat) (l : Bytes) (h : sep ∉ l) :
    bsplit sep l = [l] := by
  induction l with
  | nil => simp [bsplit]
  | cons b rest ih =>
    have hb : b ≠ sep := by intro he; exact h (he ▸ List.mem_cons_self b rest)
    have hrest : sep ∉ rest := fun hm => h (List.mem_cons_of_mem b hm)
    rw [bsplit]
    simp only [hb, if_false, ih hrest]

theorem bsplit_append (sep : Nat) (a b : Bytes) (ha : sep ∉ a) :
    bsplit sep (a ++ sep :: b) = a :: bsplit sep b := by
  induction a with
  | nil => simp [bsplit]
  | cons x xs ih =>
    have hx : x ≠ sep := by intro he; exact ha (he ▸ List.mem_cons_self x xs)
    have hxs : sep ∉ xs := fun hm => ha (List.mem_cons_of_mem x hm)
    rw [List.cons_append, bsplit]
    simp only [hx, if_false, ih hxs]

/-- Splitting a two-part string with a clean separator recovers both parts. -/
theorem bsplit_pair (sep : Nat) (a b : Bytes) (ha : sep ∉ a) (hb : sep ∉ b) :
    bsplit sep (a ++ sep :: b) = [a, b] := by
  rw [bsplit_append sep a b ha, bsplit_not_mem sep b hb]

/-! ### Association lists modelling Python dicts -/

/-- First-hit lookup, `d[k]` / `k in d`. -/
def alGet? {α : Type} : List (Bytes × α) → Bytes → Option α
  | [], _ => none
  | (k, v) :: rest, q => if k = q then some v else alGet? rest q

/-- Lookup with a default, the read of a `defaultdict`. -/
def alGetD {α : Type} (m : List (Bytes × α)) (q : Bytes) (d : α) : α :=
  (alGet? m q).getD d

/-- In-place update of the first hit, appending a fresh key at the end:
Python dict assignment semantics (insertion order preserved). -/
def alUpd {α : Type} : List (Bytes × α) → Bytes → (Option α → α) → List (Bytes × α)
  | [], q, f => [(q, f none)]
  | (k, v) :: rest, q, f =>
    if k = q then (k, f (some v)) :: rest else (k, v) :: alUpd rest q f

/-- `d.pop(k)` on a key known to be present (keys are unique in a dict,
so removing every hit coincides with removing the entry). -/
def alErase {α : Type} (m : List (Bytes × α)) (q : Bytes) : List (Bytes × α) :=
  m.filter (fun kv => !decide (kv.1 = q))

theorem alGet?_alUpd_self {α : Type} (m : List (Bytes × α)) (k : Bytes)
    (f : Option α → α) : alGet? (alUpd m k f) k = some (f (alGet? m k)) := by
  induction m with
  | nil => simp [alUpd, alGet?]
  | cons kv rest ih =>
    obtain ⟨k', v⟩ := kv
    by_cases hk : k' = k
    · simp [alUpd, alGet?, hk]
    · simp [alUpd, alGet?, hk, ih]

theorem alGet?_alUpd_ne {α : Type} (m : List (Bytes × α)) (k q : Bytes)
    (f : Option α → α) (h : q ≠ k) : alGet? (alUpd m k f) q = alGet? m q := by
  have hkq : k ≠ q := Ne.symm h
  induction m with
  | nil => simp [alUpd, alGet?, hkq]
  | cons kv rest ih =>
    obtain ⟨k', v⟩ := kv
    by_cases hk : k' = k
    · subst hk
      simp [alUpd, alGet?, hkq]
    · by_cases hq : k' = q
      · simp [alUpd, alGet?, hk, hq, hkq.symm]
      · simp [alUpd, alGet?, hk, hq, ih]

theorem alGet?_alErase_self {α : Type} (m : List (Bytes × α)) (q : Bytes) :
    alGet? (alErase m q) q = none := by
  induction m with
  | nil => simp [alErase, alGet?]
  | cons kv rest ih =>
    obtain ⟨k, v⟩ := kv
    by_cases hk : k = q
    · simpa [alErase, List.filter_cons, hk] using ih
    · simpa [alErase, List.filter_cons, hk, alGet?] using ih

theorem alGet?_alErase_ne {α : Type} (m : List (Bytes × α)) (k q : Bytes)
    (h : q ≠ k) : alGet? (alErase m k) q = alGet? m q := by
  induction m with
  | nil => simp [alErase, alGet?]
  | cons kv rest ih =>
    obtain ⟨k', v⟩ := kv
    by_cases hk : k' = k
    · subst hk
      have : k' ≠ q := Ne.symm h
      simp only [alErase, List.filter_cons] at ih ⊢
      simp [alGet?, this, ih]
    · simp only [alErase, List.filter_cons] at ih ⊢
      by_cases hq : k' = q <;> simp [alGet?, hk, hq, h, ih]

theorem mem_alUpd {α : Type} (m : List (Bytes × α)) (k : Bytes)
    (f : Option α → α) : ∀ kv ∈ alUpd m k f, kv.1 = k ∨ kv ∈ m := by
  induction m with
  | nil =>
    intro kv h
    rw [alUpd, List.mem_singleton] at h
    left; rw [h]
  | cons kv' rest ih =>
    obtain ⟨k', v⟩ := kv'
    intro kv h
    by_cases hk : k' = k
    · rw [alUpd, if_pos hk, List.mem_cons] at h
      rcases h with h | h
      · left; rw [h, hk]
      · right; exact List.mem_cons_of_mem _ h
    · rw [alUpd, if_neg hk, List.mem_cons] at h
      rcases h with h | h
      · right; rw [h]; exact List.mem_cons_self _ _
      · rcases ih kv h with h' | h'
        · left; exact h'
        · right; exact List.mem_cons_of_mem _ h'

/-- Keys of an updated dict. -/
theorem keys_alUpd {α : Type} (m : List (Bytes × α)) (k : Bytes)
    (f : Option α → α) :
    (alUpd m k f).map Prod.fst = m.map Prod.fst
      ∨ (alUpd m k f).map Prod.fst = m.map Prod.fst ++ [k] := by
  induction m with
  | nil => right; simp [alUpd]
  | cons kv rest ih =>
    obtain ⟨k', v⟩ := kv
    by_cases hk : k' = k
    · left; simp [alUpd, hk]
    · rcases ih with h | h
      · left; simp [alUpd, hk, h]
      · right; simp [alUpd, hk, h]

theorem nodup_keys_alUpd {α : Type} (m : List (Bytes × α)) (k : Bytes)
    (f : Option α → α) (h : (m.map Prod.fst).Nodup) :
    ((alUpd m k f).map Prod.fst).Nodup := by
  induction m with
  | nil => simp [alUpd]
  | cons kv rest ih =>
    obtain ⟨k', v⟩ := kv
    rw [List.map_cons, List.nodup_cons] at h
    by_cases hk : k' = k
    · simpa [alUpd, hk, List.nodup_cons] using h
    · have hrest := ih h.2
      have hk' : k' ∉ (alUpd rest k f).map Prod.fst := by
        rcases keys_alUpd rest k f with he | he <;> rw [he]
        · exact h.1
        · intro hm
          rcases List.mem_append.mp hm with hm | hm
          · exact h.1 hm
          · simp at hm; exact hk hm
      simp [alUpd, hk, List.nodup_cons, hk', hrest]

/-! ### Tensors and wire frames -/

/-- One row of a result tensor (the per-item embedding vector). -/
abbrev Row := List Int

/-- A 2-D tensor as its list of rows; `X.shape[0]` is the list length and
`np.concatenate(_, axis=0)` is concatenation of the row lists. -/
abbrev Tensor := List Row

/-- Second dimension of a (rectangular) tensor. -/
def rowDim (t : Tensor) : Nat :=
  match t with
  | [] => 0
  | r :: _ => r.length

/-- The ndarray metadata `dict(dtype=str(X.dtype), shape=X.shape)` of
`send_ndarray`; the broker always ships float32 embeddings. -/
structure NdHeader where
  dtype : String
  shape : List Nat
deriving DecidableEq

/-- `jsonapi.dumps(md)` for the metadata of tensor `t`. -/
def mdOf (t : Tensor) : NdHeader := ⟨"float32", [t.length, rowDim t]⟩

/-- One frame of a multipart message.  All frames are byte strings on the
wire; `json` and `tensor` frames stand for the serialized forms that
`jsonapi.dumps`/`ndarray.tobytes` produce and whose deserialization is the
identity on well-formed data. -/
inductive Frame where
  | bytes (b : Bytes)
  | json (h : NdHeader)
  | tensor (t : Tensor)
deriving DecidableEq

/-- A multipart message on the publisher (or worker→sink) socket. -/
abbrev PubMsg := List Frame

/-- `send_ndarray(src, dest, X, req_id)` (source lines 499-502): a four-frame
multipart `[dest, dumps(md), X, req_id]`.  The worker calls it with the
default `req_id=b''`, i.e. `reqId = []`. -/
def send_ndarray (dest : Bytes) (X : Tensor) (reqId : Bytes) : PubMsg :=
  [Frame.bytes dest, Frame.json (mdOf X), Frame.tensor X, Frame.bytes reqId]

/-! ### The Sink's buffered parts and their sort

A buffered part is `(X, partial_id)` where `partial_id` is the byte string
after `@` in the chunk id, or the Python integer `0` when the chunk id has
no `@` (modelled as `none`).  The completion path sorts parts with key
`int(x[1])`. -/

/-- A buffered part `(X, partial_id)` of `pending_result`. -/
abbrev PartEntry := Tensor × Option Bytes

/-- The sort key `int(x[1])` of line 366 (`int` of the raw tag bytes, the
Python integer `0` for an untagged single-chunk part). -/
def tagKey (p : PartEntry) : Nat :=
  match p.2 with
  | none => 0
  | some b => bytesToNat b

/-- Ordered insertion keeping equal keys in arrival order (Python `sorted`
is stable). -/
def insPart (p : PartEntry) : List PartEntry → List PartEntry
  | [] => [p]
  | q :: qs => if tagKey q ≤ tagKey p then q :: insPart p qs else p :: q :: qs

/-- `sorted(tmp, key=lambda x: int(x[1]))` of line 366. -/
def sortParts : List PartEntry → List PartEntry
  | [] => []
  | p :: ps => insPart p (sortParts ps)

theorem insPart_perm (p : PartEntry) (l : List PartEntry) :
    List.Perm (insPart p l) (p :: l) := by
  induction l with
  | nil => rfl
  | cons q qs ih =>
    rw [insPart]
    by_cases h : tagKey q ≤ tagKey p
    · rw [if_pos h]
      exact (ih.cons q).trans (List.Perm.swap p q qs)
    · rw [if_neg h]

theorem sortParts_perm (l : List PartEntry) : List.Perm (sortParts l) l := by
  induction l with
  | nil => rfl
  | cons p ps ih => exact (insPart_perm p (sortParts ps)).trans (ih.cons p)

theorem mem_insPart (p x : PartEntry) (l : List PartEntry) :
    x ∈ insPart p l → x = p ∨ x ∈ l := fun h =>
  List.mem_cons.mp ((insPart_perm p l).mem_iff.mp h)

theorem insPart_sorted (p : PartEntry) (l : List PartEntry)
    (h : l.Pairwise (fun a b => tagKey a ≤ tagKey b)) :
    (insPart p l).Pairwise (fun a b => tagKey a ≤ tagKey b) := by
  induction l with
  | nil => simp [insPart]
  | cons q qs ih =>
    rw [List.pairwise_cons] at h
    rw [insPart]
    by_cases hq : tagKey q ≤ tagKey p
    · rw [if_pos hq, List.pairwise_cons]
      refine ⟨?_, ih h.2⟩
      intro x hx
      rcases mem_insPart p x qs hx with hx' | hx'
      · rw [hx']; exact hq
      · exact h.1 x hx'
    · rw [if_neg hq, List.pairwise_cons]
      refine ⟨?_, List.pairwise_cons.mpr h⟩
      intro x hx
      rcases List.mem_cons.mp hx with hx' | hx'
      · rw [hx']; omega
      · exact le_trans (by omega) (h.1 x hx')

theorem sortParts_sorted (l : List PartEntry) :
    (sortParts l).Pairwise (fun a b => tagKey a ≤ tagKey b) := by
  induction l with
  | nil => simp [sortParts]
  | cons p ps ih => exact insPart_sorted p (sortParts ps) ih

/-- A permutation of a list with pairwise strictly increasing keys is
recovered exactly by the stable sort: the re-sort at source line 366
reconstructs the dispatch order of the chunks. -/
theorem sortParts_of_perm_strict (l c : List PartEntry)
    (hperm : List.Perm l c)
    (hc : c.Pairwise (fun a b => tagKey a < tagKey b)) :
    sortParts l = c := by
  haveI : IsAntisymm PartEntry (fun a b => tagKey a < tagKey b) :=
    ⟨fun a b h1 h2 => absurd (lt_trans h1 h2) (lt_irrefl _)⟩
  have hps : List.Perm (sortParts l) c := (sortParts_perm l).trans hperm
  have hcnodup : (c.map tagKey).Nodup :=
    (List.pairwise_map).mpr (hc.imp fun h => Nat.ne_of_lt h)
  have hsnodup : ((sortParts l).map tagKey).Nodup :=
    ((hps.map tagKey).nodup_iff).mpr hcnodup
  have hne : (sortParts l).Pairwise (fun a b => tagKey a ≠ tagKey b) :=
    (List.pairwise_map).mp hsnodup
  have hslt : (sortParts l).Pairwise (fun a b => tagKey a < tagKey b) :=
    ((sortParts_sorted l).and hne).imp fun h => lt_of_le_of_ne h.1 h.2
  exact List.eq_of_perm_of_sorted hps hslt hc

/-! ### The Ventilator's batch partitioning (source lines 283-293)

`chunksGo fuel sIdx seqs m` mirrors the while loop

    s_idx = 0
    while s_idx < num_seqs:
        tmp = seqs[s_idx : s_idx + max_batch_size]
        if tmp: push (job_id @ s_idx, dumps(tmp))
        s_idx += len(tmp)

with explicit fuel (`seqs.length + 1` suffices whenever `m ≥ 1`; with
`m = 0` the Python loop does not terminate). -/

def chunksGo (seqs : List Bytes) (m : Nat) : Nat → Nat → List (Nat × List Bytes)
  | 0, _ => []
  | fuel + 1, sIdx =>
    if sIdx < seqs.length then
      let tmp := (seqs.drop sIdx).take m
      if tmp.isEmpty then chunksGo seqs m fuel (sIdx + tmp.length)
      else (sIdx, tmp) :: chunksGo seqs m fuel (sIdx + tmp.length)
    else []

/-- The chunk sequence `(s_idx, seqs[s_idx : s_idx+m])` produced by the
partition loop. -/
def chunks (seqs : List Bytes) (m : Nat) : List (Nat × List Bytes) :=
  chunksGo seqs m (seqs.length + 1) 0

theorem chunksGo_of_ge (seqs : List Bytes) (m fuel sIdx : Nat)
    (h : seqs.length ≤ sIdx) : chunksGo seqs m fuel sIdx = [] := by
  cases fuel with
  | zero => rfl
  | succ fuel => rw [chunksGo]; simp [Nat.not_lt.mpr h]

theorem chunksGo_of_lt (seqs : List Bytes) (m fuel sIdx : Nat)
    (hs : sIdx < seqs.length) (hm : 1 ≤ m) :
    chunksGo seqs m (fuel + 1) sIdx =
      (sIdx, (seqs.drop sIdx).take m)
        :: chunksGo seqs m fuel (sIdx + min m (seqs.length - sIdx)) := by
  have hlen : ((seqs.drop sIdx).take m).length = min m (seqs.length - sIdx) := by
    simp [List.length_take, List.length_drop]
  have hne : ¬ ((seqs.drop sIdx).take m).isEmpty := by
    rw [List.isEmpty_iff_length_eq_zero, hlen]
    omega
  rw [chunksGo]
  simp only [hs, if_true, hne, if_false, hlen]
  simp

/-- Coverage: the emitted chunks concatenate to the batch tail, in order. -/
theorem chunksGo_flatten (seqs : List Bytes) (m : Nat) (hm : 1 ≤ m) :
    ∀ fuel sIdx, seqs.length - sIdx < fuel →
      ((chunksGo seqs m fuel sIdx).map Prod.snd).flatten = seqs.drop sIdx := by
  intro fuel
  induction fuel with
  | zero => omega
  | succ fuel ih =>
    intro sIdx hfuel
    by_cases hs : sIdx < seqs.length
    · rw [chunksGo_of_lt seqs m fuel sIdx hs hm]
      rw [List.map_cons, List.flatten_cons]
      rw [ih (sIdx + min m (seqs.length - sIdx)) (by omega)]
      rw [← List.drop_drop]
      have hdm : (seqs.drop sIdx).drop (min m (seqs.length - sIdx)) = (seqs.drop sIdx).drop m := by
        rcases Nat.le_total m (seqs.length - sIdx) with h | h
        · rw [Nat.min_eq_left h]
        · have h1 : (seqs.drop sIdx).length ≤ min m (seqs.length - sIdx) := by
            rw [List.length_drop]; omega
          have h2 : (seqs.drop sIdx).length ≤ m := by
            rw [List.length_drop]; omega
          rw [List.drop_eq_nil_of_le h1, List.drop_eq_nil_of_le h2]
      rw [hdm]
      exact List.take_append_drop m (seqs.drop sIdx)
    · rw [chunksGo_of_ge seqs m (fuel + 1) sIdx (by omega)]
      rw [List.drop_eq_nil_of_le (by omega)]
      rfl

/-- Every emitted chunk is nonempty and no larger than the batch limit. -/
theorem chunksGo_sizes (seqs : List Bytes) (m : Nat) (hm : 1 ≤ m) :
    ∀ fuel sIdx, ∀ p ∈ chunksGo seqs m fuel sIdx,
      p.2.length ≤ m ∧ p.2 ≠ [] ∧ p.2 = (seqs.drop p.1).take m := by
  intro fuel
  induction fuel with
  | zero => intro sIdx p hp; simp [chunksGo] at hp
  | succ fuel ih =>
    intro sIdx p hp
    by_cases hs : sIdx < seqs.length
    · rw [chunksGo_of_lt seqs m fuel sIdx hs hm] at hp
      rcases List.mem_cons.mp hp with hp | hp
      · subst hp
        refine ⟨by simp [List.length_take], ?_, rfl⟩
        have hlen : ((seqs.drop sIdx).take m).length = min m (seqs.length - sIdx) := by
          simp [List.length_take]
        intro he
        have he' : (seqs.drop sIdx).take m = [] := he
        rw [he'] at hlen
        simp at hlen
        omega
      · exact ih _ p hp
    · rw [chunksGo_of_ge seqs m (fuel + 1) sIdx (Nat.le_of_not_lt hs)] at hp
      simp at hp

/-- Offsets of the emitted chunks are `sIdx, sIdx + m, sIdx + 2m, ...` when
the loop starts at a multiple of `m`. -/
theorem chunksGo_offsets (seqs : List Bytes) (m : Nat) (hm : 1 ≤ m) :
    ∀ fuel q i p, (chunksGo seqs m fuel (q * m))[i]? = some p →
      p.1 = (q + i) * m := by
  intro fuel
  induction fuel with
  | zero => intro q i p hp; simp [chunksGo] at hp
  | succ fuel ih =>
    intro q i p hp
    by_cases hs : q * m < seqs.length
    · rw [chunksGo_of_lt seqs m fuel (q * m) hs hm] at hp
      cases i with
      | zero =>
        simp at hp
        rw [← hp]
        simp
      | succ i =>
        rw [List.getElem?_cons_succ] at hp
        rcases Nat.le_total m (seqs.length - q * m) with h | h
        · have hq : q * m + min m (seqs.length - q * m) = (q + 1) * m := by
            rw [Nat.min_eq_left h]; ring
          rw [hq] at hp
          have := ih (q + 1) i p hp
          rw [this]; ring
        · have hq : q * m + min m (seqs.length - q * m) = seqs.length := by
            rw [Nat.min_eq_right h]; omega
          rw [hq, chunksGo_of_ge seqs m fuel seqs.length (le_refl _)] at hp
          simp at hp
    · rw [chunksGo_of_ge seqs m (fuel + 1) (q * m) (Nat.le_of_not_lt hs)] at hp
      simp at hp

/-! ### The Ventilator request handler (source lines 256-298)

An inbound client envelope is a list of frames.  `VFrame.items seqs` stands
for a byte frame that `jsonapi.loads` decodes to the item list `seqs`
(items are opaque byte strings to the broker); `VFrame.bytes b` stands for
any other byte frame (for which `loads` raises `ValueError`).  `VFrame.raw`
is the underlying byte string, used wherever the source handles the frame
as raw bytes (addresses, the `SHOW_CONFIG` comparison, the unsplit
dispatch that forwards `msg` verbatim). -/

/-- A simple injective stand-in for `jsonapi.dumps` of a list of items:
`[` followed by length-prefixed items.  A serialized list always starts
with `[` (byte 91), so it never equals the `SHOW_CONFIG` sentinel. -/
def encItems (l : List Bytes) : Bytes :=
  91 :: (l.map (fun b => natToBytes b.length ++ 58 :: b)).flatten

theorem encItems_ne_showConfig (l : List Bytes) : encItems l ≠ showConfigB := by
  intro h
  have := congrArg (fun b => b.headD 0) h
  simp [encItems, showConfigB] at this

/-- One frame of an inbound client envelope. -/
inductive VFrame where
  | bytes (b : Bytes)
  | items (seqs : List Bytes)
deriving DecidableEq

/-- The underlying byte string of a frame. -/
def VFrame.raw : VFrame → Bytes
  | .bytes b => b
  | .items s => encItems s

/-- Result of one iteration of the Ventilator loop on one inbound
envelope: the updated `num_req` counter, the four-frame control messages
sent to the Sink over the pair socket, the `(label, payload)` chunk
messages pushed to the backend, and whether the request was processed
(`ok = false` models a `ValueError` caught at lines 296-298: the request
is logged and dropped).  The Ventilator owns no client-facing publisher,
so it can emit no reply of its own. -/
structure VentRes where
  numReq : Nat
  toSink : List (List Bytes)
  toBackend : List (Bytes × Bytes)
  ok : Bool
deriving DecidableEq

/-- One iteration of the `BertServer.run` loop body (lines 256-298) on the
envelope `request`, given the current request counter, `max_batch_size`
and the config JSON snapshot used for `SHOW_CONFIG` replies.

Faithful control flow: 3-frame destructuring (else `ValueError`, dropped);
`msg == SHOW_CONFIG` checked first, its log calls `int(req_id)` (an id that
`int()` rejects — see `isPyInt` — raises and drops the request before
anything is sent); otherwise the encode log calls `int(req_id)` (same
effect), the counter is incremented, `loads(msg)` runs (failure drops the
request after the increment), the job is registered at the Sink, and the
batch is dispatched whole (`[job_id, msg]`) or partitioned
(`[job_id @ s_idx, dumps(tmp)]`). -/
def ventHandle (numReq maxBatch : Nat) (cfg : Bytes) (request : List VFrame) :
    VentRes :=
  match request with
  | [c, p, r] =>
    let client := c.raw
    let reqId := r.raw
    if p.raw = showConfigB then
      if isPyInt reqId then
        ⟨numReq, [[client, showConfigB, cfg, reqId]], [], true⟩
      else ⟨numReq, [], [], false⟩
    else
      if isPyInt reqId then
        match p with
        | .items seqs =>
          let n := seqs.length
          let jobId := client ++ hashB :: reqId
          ⟨numReq + 1,
           [[client, registerB, natToBytes n, reqId]],
           if maxBatch < n then
             (chunks seqs maxBatch).map
               (fun pr => (jobId ++ atB :: natToBytes pr.1, encItems pr.2))
           else [(jobId, p.raw)],
           true⟩
        | .bytes _ => ⟨numReq + 1, [], [], false⟩
      else ⟨numReq, [], [], false⟩
  | _ => ⟨numReq, [], [], false⟩

/-! ### The Sink (source lines 316-384) -/

/-- The three Sink-local job tables:
`pc` is `pending_checksum` (defaultdict(int)),
`pr` is `pending_result` (defaultdict(list)),
`jc` is `job_checksum` (a plain dict — lookups of absent keys raise). -/
structure SinkSt where
  pc : List (Bytes × Nat)
  pr : List (Bytes × List PartEntry)
  jc : List (Bytes × Nat)
deriving DecidableEq

/-- An uncaught exception terminating the Sink loop: `KeyError` from the
plain dict `job_checksum`, `ValueError` from destructuring
`job_info.split(b'#')` into two names, or a message whose frames cannot be
parsed as `[chunk_id, header_json, tensor_bytes]`. -/
inductive SinkErr where
  | keyError (k : Bytes)
  | valueError
  | badFrames
deriving DecidableEq

/-- The `collect job %s (%d/%d)` log entry of line 355:
`(job_id, pending_checksum[job_id], job_checksum[job_id])`. -/
abbrev LogE := Bytes × Nat × Nat

/-- Result of one worker-output iteration: new state, the collect log
entry, the `finished` list of line 360, and the multiparts published on
the client-facing socket. -/
structure SinkStep where
  st : SinkSt
  logE : LogE
  finished : List (Bytes × List PartEntry)
  pubs : List PubMsg
deriving DecidableEq

/-- The JobId of a chunk id: `chunk_id.split(b'@')[0]`. -/
def chunkJob (cid : Bytes) : Bytes := (bsplit atB cid).headD []

/-- The partial id of a chunk id (line 352): the second field of the split
when the split has exactly two fields, otherwise the Python integer `0`
(modelled `none`). -/
def chunkTag (cid : Bytes) : Option Bytes :=
  let info := bsplit atB cid
  if info.length = 2 then some (info.getD 1 []) else none

/-- The completion scan of line 360:
`[(k, v) for k, v in pending_result.items() if pending_checksum[k] == job_checksum[k]]`.
Evaluated left to right; `job_checksum[k]` raises `KeyError` on an
unregistered job (`pending_checksum` is a defaultdict and cannot raise). -/
def scanFinished (jc pc : List (Bytes × Nat)) :
    List (Bytes × List PartEntry) → Except SinkErr (List (Bytes × List PartEntry))
  | [] => .ok []
  | (k, v) :: rest =>
    match alGet? jc k with
    | none => .error (.keyError k)
    | some e =>
      match scanFinished jc pc rest with
      | .error err => .error err
      | .ok l => .ok (if alGetD pc k 0 = e then (k, v) :: l else l)

/-- Delivery of one finished job (lines 361-371): re-sort the parts by
`int(partial_id)`, concatenate along axis 0, split the JobId at `#` into
`(client_addr, req_id)` (a JobId without exactly one `#` raises
`ValueError`), publish via `send_ndarray`, and pop the job from all three
tables. -/
def deliverOne (st : SinkSt) (j : Bytes) (tmp : List PartEntry) :
    Except SinkErr (SinkSt × PubMsg) :=
  let sorted := sortParts tmp
  let X : Tensor := (sorted.map Prod.fst).flatten
  match bsplit hashB j with
  | [c, r] =>
    .ok (⟨alErase st.pc j, alErase st.pr j, alErase st.jc j⟩,
         send_ndarray c X r)
  | _ => .error .valueError

/-- Deliver every finished job in scan order. -/
def deliverAll (st : SinkSt) :
    List (Bytes × List PartEntry) → Except SinkErr (SinkSt × List PubMsg)
  | [] => .ok (st, [])
  | (j, tmp) :: rest =>
    match deliverOne st j tmp with
    | .error err => .error err
    | .ok (st', p) =>
      match deliverAll st' rest with
      | .error err => .error err
      | .ok (st'', ps) => .ok (st'', p :: ps)

/-- The worker-output branch of the Sink loop (lines 343-371) on a parsed
message `(chunk_id, X)`: split the chunk id, append the part and bump the
row count (defaultdict writes), log `collect job (received/expected)` —
which raises `KeyError` when the job is unregistered — then scan for
finished jobs and deliver them. -/
def handleWorkerCore (s : SinkSt) (cid : Bytes) (X : Tensor) :
    Except SinkErr SinkStep :=
  let jobId := chunkJob cid
  let tag := chunkTag cid
  let pr' := alUpd s.pr jobId (fun o => o.getD [] ++ [(X, tag)])
  let pc' := alUpd s.pc jobId (fun o => o.getD 0 + X.length)
  match alGet? s.jc jobId with
  | none => .error (.keyError jobId)
  | some e =>
    match scanFinished s.jc pc' pr' with
    | .error err => .error err
    | .ok fin =>
      match deliverAll ⟨pc', pr', s.jc⟩ fin with
      | .error err => .error err
      | .ok (st', pubs) =>
        .ok ⟨st', (jobId, alGetD pc' jobId 0, e), fin, pubs⟩

/-- The worker-output branch at the wire level: `recv_multipart` followed
by `msg[0]`, `jsonapi.loads(msg[1])`, `msg[2]` — only the first three
frames are read, any further frames are ignored. -/
def handleWorkerMsg (s : SinkSt) (msg : List Frame) :
    Except SinkErr SinkStep :=
  match msg[0]?, msg[1]?, msg[2]? with
  | some (Frame.bytes cid), some (Frame.json _), some (Frame.tensor X) =>
    handleWorkerCore s cid X
  | _, _, _ => .error .badFrames

/-- The control branch of the Sink loop (lines 373-382) on the four-frame
pair-socket message `[client_addr, msg_type, msg_info, req_id]`:
`REGISTER` sets `job_checksum[client_addr # req_id] = int(msg_info)`;
`SHOW_CONFIG` publishes `[client_addr, msg_info, req_id]` after the
slow-joiner pause; any other type falls through with no effect. -/
def handleFrontend (s : SinkSt) (clientAddr msgType msgInfo reqId : Bytes) :
    SinkSt × List PubMsg :=
  if msgType = registerB then
    ({ s with jc := alUpd s.jc (clientAddr ++ hashB :: reqId)
                      (fun _ => bytesToNat msgInfo) }, [])
  else if msgType = showConfigB then
    (s, [[Frame.bytes clientAddr, Frame.bytes msgInfo, Frame.bytes reqId]])
  else (s, [])

/-- A run of successive worker-output iterations, accumulating the keys of
every job delivered along the way. -/
def runWorkerMsgs (s : SinkSt) :
    List (Bytes × Tensor) → Except SinkErr (SinkSt × List Bytes)
  | [] => .ok (s, [])
  | (cid, X) :: rest =>
    match handleWorkerCore s cid X with
    | .error err => .error err
    | .ok out =>
      match runWorkerMsgs out.st rest with
      | .error err => .error err
      | .ok (s', ks) => .ok (s', out.finished.map Prod.fst ++ ks)

/-! ### Properties of the completion scan and the delivery loop -/

/-- When every pending job is registered, the scan succeeds and returns
exactly the pending entries whose received count equals their expected
count (in table order, as the Python list comprehension does). -/
theorem scanFinished_char (jc pc : List (Bytes × Nat))
    (pr : List (Bytes × List PartEntry))
    (h : ∀ kv ∈ pr, ∃ e, alGet? jc kv.1 = some e) :
    scanFinished jc pc pr =
      .ok (pr.filter (fun kv => decide (alGetD pc kv.1 0 = alGetD jc kv.1 0))) := by
  induction pr with
  | nil => simp [scanFinished]
  | cons kv rest ih =>
    obtain ⟨k, v⟩ := kv
    obtain ⟨e, he⟩ := h (k, v) (List.mem_cons_self _ _)
    have ihr := ih (fun kv hm => h kv (List.mem_cons_of_mem _ hm))
    rw [scanFinished, he, ihr]
    simp [List.filter_cons, alGetD, he]

/-- Soundness of the scan: every entry it returns was pending and satisfies
the completion test. -/
theorem scanFinished_mem (jc pc : List (Bytes × Nat)) :
    ∀ (pr fin : List (Bytes × List PartEntry)),
      scanFinished jc pc pr = .ok fin →
      ∀ kv ∈ fin, kv ∈ pr ∧ alGetD pc kv.1 0 = alGetD jc kv.1 0 := by
  intro pr
  induction pr with
  | nil =>
    intro fin h kv hkv
    rw [scanFinished] at h
    simp only [Except.ok.injEq] at h
    rw [← h] at hkv
    simp at hkv
  | cons hd rest ih =>
    intro fin h kv hkv
    obtain ⟨k, v⟩ := hd
    rw [scanFinished] at h
    cases he : alGet? jc k with
    | none => rw [he] at h; simp at h
    | some e =>
      rw [he] at h
      cases hrest : scanFinished jc pc rest with
      | error err => rw [hrest] at h; simp at h
      | ok l =>
        rw [hrest] at h
        simp only [Except.ok.injEq] at h
        rw [← h] at hkv
        by_cases hc : alGetD pc k 0 = e
        · rw [if_pos hc] at hkv
          rcases List.mem_cons.mp hkv with hkv' | hkv'
          · subst hkv'
            refine ⟨List.mem_cons_self _ _, ?_⟩
            rw [hc]
            simp [alGetD, he]
          · obtain ⟨hmem, heq⟩ := ih l hrest kv hkv'
            exact ⟨List.mem_cons_of_mem _ hmem, heq⟩
        · rw [if_neg hc] at hkv
          obtain ⟨hmem, heq⟩ := ih l hrest kv hkv
          exact ⟨List.mem_cons_of_mem _ hmem, heq⟩

/-- With a nodup table in which `j` holds `v` and every other entry fails
the test, the filtered completion list is `[(j, v)]` or `[]` according to
`j`'s own test. -/
theorem filter_eq_single {α : Type} (P : Bytes × α → Bool)
    (l : List (Bytes × α)) (j : Bytes) (v : α)
    (hnd : (l.map Prod.fst).Nodup)
    (hv : alGet? l j = some v)
    (hoth : ∀ kv ∈ l, kv.1 ≠ j → P kv = false) :
    l.filter P = if P (j, v) then [(j, v)] else [] := by
  induction l with
  | nil => simp [alGet?] at hv
  | cons kv rest ih =>
    obtain ⟨k, w⟩ := kv
    rw [List.map_cons, List.nodup_cons] at hnd
    by_cases hk : k = j
    · subst hk
      rw [alGet?, if_pos rfl, Option.some.injEq] at hv
      subst hv
      have hrest : rest.filter P = [] := by
        rw [List.filter_eq_nil_iff]
        intro kv hkv
        have hne : kv.1 ≠ k := by
          intro he
          have hmem : kv.1 ∈ rest.map Prod.fst :=
            List.mem_map_of_mem Prod.fst hkv
          rw [he] at hmem
          exact hnd.1 hmem
        simp [hoth kv (List.mem_cons_of_mem _ hkv) hne]
      rw [List.filter_cons, hrest]
    · rw [alGet?, if_neg hk] at hv
      have hP : P (k, w) = false :=
        hoth (k, w) (List.mem_cons_self _ _) hk
      rw [List.filter_cons, hP]
      simp only [Bool.false_eq_true, if_false]
      exact ih hnd.2 hv (fun kv hkv => hoth kv (List.mem_cons_of_mem _ hkv))

/-- Shape of a successful single delivery: the published multipart is the
`send_ndarray` of the sorted concatenation, and the job is popped from all
three tables. -/
theorem deliverOne_eq (st : SinkSt) (j c r : Bytes) (tmp : List PartEntry)
    (h : bsplit hashB j = [c, r]) :
    deliverOne st j tmp =
      .ok (⟨alErase st.pc j, alErase st.pr j, alErase st.jc j⟩,
           send_ndarray c ((sortParts tmp).map Prod.fst).flatten r) := by
  unfold deliverOne
  rw [h]

/-- Any successful single delivery pops the job from all three tables. -/
theorem deliverOne_shape (st : SinkSt) (j : Bytes) (tmp : List PartEntry)
    (st1 : SinkSt) (p : PubMsg) (h : deliverOne st j tmp = .ok (st1, p)) :
    st1 = ⟨alErase st.pc j, alErase st.pr j, alErase st.jc j⟩ := by
  unfold deliverOne at h
  cases hs : bsplit hashB j with
  | nil => rw [hs] at h; simp at h
  | cons a as =>
    cases as with
    | nil => rw [hs] at h; simp at h
    | cons b bs =>
      cases bs with
      | nil =>
        rw [hs] at h
        simp only [Except.ok.injEq, Prod.mk.injEq] at h
        exact h.1.symm
      | cons c cs => rw [hs] at h; simp at h

/-- Lookups of a key not being delivered are unchanged by the delivery
loop. -/
theorem deliverAll_lookup_ne (l : List (Bytes × List PartEntry)) :
    ∀ (st st' : SinkSt) (ps : List PubMsg),
      deliverAll st l = .ok (st', ps) →
      ∀ q, q ∉ l.map Prod.fst →
        alGet? st'.pc q = alGet? st.pc q ∧
        alGet? st'.pr q = alGet? st.pr q ∧
        alGet? st'.jc q = alGet? st.jc q := by
  induction l with
  | nil =>
    intro st st' ps h q hq
    rw [deliverAll] at h
    simp only [Except.ok.injEq, Prod.mk.injEq] at h
    rw [← h.1]
    exact ⟨rfl, rfl, rfl⟩
  | cons hd rest ih =>
    intro st st' ps h q hq
    obtain ⟨j, tmp⟩ := hd
    rw [List.map_cons, List.mem_cons] at hq
    push_neg at hq
    rw [deliverAll] at h
    split at h
    · simp at h
    · rename_i st1 p h1
      split at h
      · simp at h
      · rename_i st2 ps2 h2
        simp only [Except.ok.injEq, Prod.mk.injEq] at h
        have hshape := deliverOne_shape st j tmp st1 p h1
        have hrec := ih st1 st2 ps2 h2 q hq.2
        rw [← h.1]
        subst hshape
        refine ⟨?_, ?_, ?_⟩
        · rw [hrec.1]; exact alGet?_alErase_ne st.pc j q hq.1
        · rw [hrec.2.1]; exact alGet?_alErase_ne st.pr j q hq.1
        · rw [hrec.2.2]; exact alGet?_alErase_ne st.jc j q hq.1

/-- A key absent from a table stays absent through the delivery loop. -/
theorem deliverAll_none_mono (l : List (Bytes × List PartEntry)) :
    ∀ (st st' : SinkSt) (ps : List PubMsg),
      deliverAll st l = .ok (st', ps) →
      ∀ q,
        (alGet? st.pc q = none → alGet? st'.pc q = none) ∧
        (alGet? st.pr q = none → alGet? st'.pr q = none) ∧
        (alGet? st.jc q = none → alGet? st'.jc q = none) := by
  induction l with
  | nil =>
    intro st st' ps h q
    rw [deliverAll] at h
    simp only [Except.ok.injEq, Prod.mk.injEq] at h
    rw [← h.1]
    exact ⟨id, id, id⟩
  | cons hd rest ih =>
    intro st st' ps h q
    obtain ⟨j, tmp⟩ := hd
    rw [deliverAll] at h
    split at h
    · simp at h
    · rename_i st1 p h1
      split at h
      · simp at h
      · rename_i st2 ps2 h2
        simp only [Except.ok.injEq, Prod.mk.injEq] at h
        have hshape := deliverOne_shape st j tmp st1 p h1
        have hrec := ih st1 st2 ps2 h2 q
        rw [← h.1]
        subst hshape
        have herase : ∀ {α : Type} (mm : List (Bytes × α)),
            alGet? mm q = none → alGet? (alErase mm j) q = none := by
          intro α mm hm
          by_cases hq : q = j
          · rw [hq]; exact alGet?_alErase_self mm j
          · rw [alGet?_alErase_ne mm j q hq]; exact hm
        exact ⟨fun hm => hrec.1 (herase st.pc hm),
               fun hm => hrec.2.1 (herase st.pr hm),
               fun hm => hrec.2.2 (herase st.jc hm)⟩

/-- Every delivered key is gone from all three tables afterwards. -/
theorem deliverAll_erases (l : List (Bytes × List PartEntry)) :
    ∀ (st st' : SinkSt) (ps : List PubMsg),
      deliverAll st l = .ok (st', ps) →
      ∀ j ∈ l.map Prod.fst,
        alGet? st'.pc j = none ∧ alGet? st'.pr j = none ∧
        alGet? st'.jc j = none := by
  induction l with
  | nil => intro st st' ps h j hj; simp at hj
  | cons hd rest ih =>
    intro st st' ps h j hj
    obtain ⟨k, tmp⟩ := hd
    rw [deliverAll] at h
    split at h
    · simp at h
    · rename_i st1 p h1
      split at h
      · simp at h
      · rename_i st2 ps2 h2
        simp only [Except.ok.injEq, Prod.mk.injEq] at h
        have hshape := deliverOne_shape st k tmp st1 p h1
        rw [List.map_cons, List.mem_cons] at hj
        rw [← h.1]
        rcases hj with hj | hj
        · subst hj
          have hmono := deliverAll_none_mono rest st1 st2 ps2 h2 j
          rw [hshape] at hmono
          exact ⟨hmono.1 (alGet?_alErase_self st.pc j),
                 hmono.2.1 (alGet?_alErase_self st.pr j),
                 hmono.2.2 (alGet?_alErase_self st.jc j)⟩
        · exact ih st1 st2 ps2 h2 j hj

/-! ### Corollaries about the dispatched chunk sequence -/

theorem chunks_flatten (seqs : List Bytes) (m : Nat) (hm : 1 ≤ m) :
    ((chunks seqs m).map Prod.snd).flatten = seqs := by
  have := chunksGo_flatten seqs m hm (seqs.length + 1) 0 (by omega)
  simpa using this

theorem chunks_sizes (seqs : List Bytes) (m : Nat) (hm : 1 ≤ m) :
    ∀ p ∈ chunks seqs m, p.2.length ≤ m ∧ p.2 ≠ [] :=
  fun p hp =>
    ⟨(chunksGo_sizes seqs m hm (seqs.length + 1) 0 p hp).1,
     (chunksGo_sizes seqs m hm (seqs.length + 1) 0 p hp).2.1⟩

theorem chunks_offsets_get (seqs : List Bytes) (m : Nat) (hm : 1 ≤ m) :
    ∀ i p, (chunks seqs m)[i]? = some p → p.1 = i * m := by
  intro i p hp
  have := chunksGo_offsets seqs m hm (seqs.length + 1) 0 i p (by simpa [chunks] using hp)
  simpa using this

theorem chunks_pairwise_lt (seqs : List Bytes) (m : Nat) (hm : 1 ≤ m) :
    (chunks seqs m).Pairwise (fun a b => a.1 < b.1) := by
  rw [List.pairwise_iff_getElem]
  intro i j hi hj hij
  have hpi := chunks_offsets_get seqs m hm i ((chunks seqs m)[i])
    (List.getElem?_eq_getElem hi)
  have hpj := chunks_offsets_get seqs m hm j ((chunks seqs m)[j])
    (List.getElem?_eq_getElem hj)
  rw [hpi, hpj]
  exact Nat.mul_lt_mul_of_pos_right hij (by omega)

/-- The canonical buffered parts of a fully dispatched and encoded job:
each dispatched chunk `(s_idx, tmp)`, encoded row-wise by the worker's
per-item row function `f` and tagged `b'%d' % s_idx` as the Ventilator
labels it. -/
def chunkParts (f : Bytes → Row) (seqs : List Bytes) (m : Nat) :
    List PartEntry :=
  (chunks seqs m).map (fun c => (c.2.map f, some (natToBytes c.1)))

theorem chunkParts_pairwise (f : Bytes → Row) (seqs : List Bytes) (m : Nat)
    (hm : 1 ≤ m) :
    (chunkParts f seqs m).Pairwise (fun a b => tagKey a < tagKey b) := by
  unfold chunkParts
  rw [List.pairwise_map]
  refine (chunks_pairwise_lt seqs m hm).imp ?_
  intro a b hab
  simpa [tagKey, bytesToNat_natToBytes] using hab

theorem chunkParts_flatten (f : Bytes → Row) (seqs : List Bytes) (m : Nat)
    (hm : 1 ≤ m) :
    ((chunkParts f seqs m).map Prod.fst).flatten = seqs.map f := by
  unfold chunkParts
  rw [List.map_map]
  have h1 : (Prod.fst ∘ fun c : Nat × List Bytes =>
      (c.2.map f, some (natToBytes c.1))) = (List.map f) ∘ Prod.snd := rfl
  rw [h1, ← List.map_map, ← List.map_flatten, chunks_flatten seqs m hm]

/-! ### Small-step delivery equations -/

theorem deliverAll_nil (st : SinkSt) : deliverAll st [] = .ok (st, []) := rfl

theorem deliverAll_single (st : SinkSt) (j c r : Bytes)
    (tmp : List PartEntry) (h : bsplit hashB j = [c, r]) :
    deliverAll st [(j, tmp)] =
      .ok (⟨alErase st.pc j, alErase st.pr j, alErase st.jc j⟩,
           [send_ndarray c ((sortParts tmp).map Prod.fst).flatten r]) := by
  rw [deliverAll, deliverOne_eq st j c r tmp h]
  rfl

/-- Claim C1 — For a Job `client # reqId` held by the Sink (registered with
expected count `n`, sentinel-free names, every pending job registered,
no other pending job complete, pending keys unique), when the partial
tagged `@ o` arrives: the Job is delivered exactly when the updated
received count equals `n`; on delivery the published multipart is
`[client_addr, tensor_header_json, tensor_bytes, req_id]` with
`(client_addr, req_id)` recovered by splitting the JobId at `#`, and the
tensor is the axis-0 concatenation of the buffered parts sorted by
`int(PartialId)` ascending; moreover, whenever the buffered parts are a
permutation of the row-wise encodings of the dispatched chunks of a batch
`seqs` with `n = seqs.length`, that concatenation is `seqs.map f` — the
client's input order — whose first dimension is `n = expected_count`. -/
theorem c1_completion_delivery
    (s : SinkSt) (client reqId : Bytes) (n o : Nat) (X : Tensor)
    (j : Bytes) (hj : j = client ++ hashB :: reqId)
    (hc35 : hashB ∉ client) (hr35 : hashB ∉ reqId)
    (hc64 : atB ∉ client) (hr64 : atB ∉ reqId)
    (hreg : alGet? s.jc j = some n)
    (hsafe : ∀ kv ∈ s.pr, ∃ e, alGet? s.jc kv.1 = some e)
    (hoth : ∀ kv ∈ s.pr, kv.1 ≠ j → alGetD s.pc kv.1 0 ≠ alGetD s.jc kv.1 0)
    (hnd : (s.pr.map Prod.fst).Nodup) :
    (alGetD s.pc j 0 + X.length = n →
      handleWorkerCore s (j ++ atB :: natToBytes o) X =
        .ok ⟨⟨alErase (alUpd s.pc j (fun w => w.getD 0 + X.length)) j,
              alErase (alUpd s.pr j
                (fun w => w.getD [] ++ [(X, some (natToBytes o))])) j,
              alErase s.jc j⟩,
             (j, alGetD s.pc j 0 + X.length, n),
             [(j, alGetD s.pr j [] ++ [(X, some (natToBytes o))])],
             [send_ndarray client
                ((sortParts (alGetD s.pr j [] ++ [(X, some (natToBytes o))])).map
                  Prod.fst).flatten
                reqId]⟩)
    ∧ (alGetD s.pc j 0 + X.length ≠ n →
      handleWorkerCore s (j ++ atB :: natToBytes o) X =
        .ok ⟨⟨alUpd s.pc j (fun w => w.getD 0 + X.length),
              alUpd s.pr j (fun w => w.getD [] ++ [(X, some (natToBytes o))]),
              s.jc⟩,
             (j, alGetD s.pc j 0 + X.length, n), [], []⟩)
    ∧ (∀ (seqs : List Bytes) (m : Nat) (f : Bytes → Row),
        1 ≤ m → n = seqs.length →
        List.Perm (alGetD s.pr j [] ++ [(X, some (natToBytes o))])
          (chunkParts f seqs m) →
        ((sortParts (alGetD s.pr j [] ++ [(X, some (natToBytes o))])).map
            Prod.fst).flatten = seqs.map f
        ∧ ((sortParts (alGetD s.pr j [] ++ [(X, some (natToBytes o))])).map
            Prod.fst).flatten.length = n) := by
  subst hj
  set j := client ++ hashB :: reqId with hjdef
  have hj64 : atB ∉ j := by
    intro hm
    rcases List.mem_append.mp hm with hm | hm
    · exact hc64 hm
    · rcases List.mem_cons.mp hm with hm | hm
      · simp [atB, hashB] at hm
      · exact hr64 hm
  have hsplit : bsplit atB (j ++ atB :: natToBytes o) = [j, natToBytes o] :=
    bsplit_pair atB j (natToBytes o) hj64 (atB_not_mem_natToBytes o)
  have hcj : chunkJob (j ++ atB :: natToBytes o) = j := by
    rw [chunkJob, hsplit]; rfl
  have hct : chunkTag (j ++ atB :: natToBytes o) = some (natToBytes o) := by
    rw [chunkTag, hsplit]; rfl
  have hsplitHash : bsplit hashB j = [client, reqId] :=
    bsplit_pair hashB client reqId hc35 hr35
  have hprself :
      alGet? (alUpd s.pr j (fun w => w.getD [] ++ [(X, some (natToBytes o))])) j
        = some (alGetD s.pr j [] ++ [(X, some (natToBytes o))]) := by
    rw [alGet?_alUpd_self]; rfl
  have hpcself :
      alGetD (alUpd s.pc j (fun w => w.getD 0 + X.length)) j 0
        = alGetD s.pc j 0 + X.length := by
    rw [alGetD, alGet?_alUpd_self]; rfl
  have hjcval : alGetD s.jc j 0 = n := by
    rw [alGetD, hreg]; rfl
  have hsafe' : ∀ kv ∈ alUpd s.pr j
      (fun w => w.getD [] ++ [(X, some (natToBytes o))]),
      ∃ e, alGet? s.jc kv.1 = some e := by
    intro kv hkv
    rcases mem_alUpd s.pr j _ kv hkv with hk | hk
    · exact ⟨n, by rw [hk]; exact hreg⟩
    · exact hsafe kv hk
  have hscan := scanFinished_char s.jc
    (alUpd s.pc j (fun w => w.getD 0 + X.length))
    (alUpd s.pr j (fun w => w.getD [] ++ [(X, some (natToBytes o))]))
    hsafe'
  have hnd' := nodup_keys_alUpd s.pr j
    (fun w => w.getD [] ++ [(X, some (natToBytes o))]) hnd
  have hothP : ∀ kv ∈ alUpd s.pr j
      (fun w => w.getD [] ++ [(X, some (natToBytes o))]),
      kv.1 ≠ j →
      (fun kv : Bytes × List PartEntry =>
        decide (alGetD (alUpd s.pc j (fun w => w.getD 0 + X.length)) kv.1 0
          = alGetD s.jc kv.1 0)) kv = false := by
    intro kv hkv hne
    have hk : kv ∈ s.pr := by
      rcases mem_alUpd s.pr j _ kv hkv with hk | hk
      · exact absurd hk hne
      · exact hk
    have hpc : alGetD (alUpd s.pc j (fun w => w.getD 0 + X.length)) kv.1 0
        = alGetD s.pc kv.1 0 := by
      rw [alGetD, alGet?_alUpd_ne s.pc j kv.1 _ hne, alGetD]
    simp only [hpc]
    simp [hoth kv hk hne]
  have hfilter := filter_eq_single
    (fun kv : Bytes × List PartEntry =>
      decide (alGetD (alUpd s.pc j (fun w => w.getD 0 + X.length)) kv.1 0
        = alGetD s.jc kv.1 0))
    (alUpd s.pr j (fun w => w.getD [] ++ [(X, some (natToBytes o))]))
    j (alGetD s.pr j [] ++ [(X, some (natToBytes o))])
    hnd' hprself hothP
  refine ⟨?_, ?_, ?_⟩
  · intro hcomp
    have hPtrue : (fun kv : Bytes × List PartEntry =>
        decide (alGetD (alUpd s.pc j (fun w => w.getD 0 + X.length)) kv.1 0
          = alGetD s.jc kv.1 0)) (j, alGetD s.pr j [] ++ [(X, some (natToBytes o))])
        = true := by
      simp only [hpcself, hjcval]
      simp [hcomp]
    rw [hPtrue] at hfilter
    rw [if_pos rfl] at hfilter
    simp only [handleWorkerCore, hcj, hct, hreg]
    simp only [hscan, hfilter]
    simp only [deliverAll_single _ j client reqId _ hsplitHash]
    simp only [hpcself]
  · intro hcomp
    have hPfalse : (fun kv : Bytes × List PartEntry =>
        decide (alGetD (alUpd s.pc j (fun w => w.getD 0 + X.length)) kv.1 0
          = alGetD s.jc kv.1 0)) (j, alGetD s.pr j [] ++ [(X, some (natToBytes o))])
        = false := by
      simp only [hpcself, hjcval]
      simp [hcomp]
    rw [hPfalse] at hfilter
    rw [if_neg Bool.false_ne_true] at hfilter
    simp only [handleWorkerCore, hcj, hct, hreg]
    simp only [hscan, hfilter]
    simp only [deliverAll_nil]
    simp only [hpcself]
  · intro seqs m f hm hn hperm
    have hsort := sortParts_of_perm_strict _ _ hperm (chunkParts_pairwise f seqs m hm)
    rw [hsort, chunkParts_flatten f seqs m hm]
    exact ⟨rfl, by simp [hn]⟩

/-- Witness for C1: job `b'c#1'` expects 3 rows; the offset-2 part is
already buffered, the offset-0 chunk (2 rows) arrives; the job completes,
is popped from all tables, and the published tensor is the input-order
concatenation `[[49],[50],[51]]` despite the reversed arrival order. -/
theorem c1_completion_delivery_witness :
    handleWorkerCore
        ⟨[([99, 35, 49], 1)], [([99, 35, 49], [([[51]], some [50])])],
         [([99, 35, 49], 3)]⟩
        [99, 35, 49, 64, 48] [[49], [50]] =
      .ok ⟨⟨[], [], []⟩, ([99, 35, 49], 3, 3),
           [([99, 35, 49], [([[51]], some [50]), ([[49], [50]], some [48])])],
           [send_ndarray [99] [[49], [50], [51]] [49]]⟩
    ∧ ((sortParts ([([[51]], some [50])] ++ [([[49], [50]], some [48])])).map
        Prod.fst).flatten = [[49], [50], [51]] := by
  have h := c1_completion_delivery
    ⟨[([99, 35, 49], 1)], [([99, 35, 49], [([[51]], some [50])])],
     [([99, 35, 49], 3)]⟩
    [99] [49] 3 0 [[49], [50]] [99, 35, 49]
    rfl (by decide) (by decide) (by decide) (by decide) (by decide)
    (by
      intro kv hkv
      rw [List.mem_singleton] at hkv
      subst hkv
      exact ⟨3, by decide⟩)
    (by
      intro kv hkv hne
      rw [List.mem_singleton] at hkv
      subst hkv
      exact absurd rfl hne)
    (by decide)
  constructor
  · exact (h.1 (by decide)).trans rfl
  · exact (h.2.2 [[49], [50], [51]] 2 (fun b => [(b.headD 0 : Int)])
      (by decide) (by decide) (by decide)).1.trans (by decide)

/-- With `len = m + 1` the partition loop emits exactly two chunks, of
sizes `m` and `1`. -/
theorem chunks_len_succ (seqs : List Bytes) (m : Nat) (hm : 1 ≤ m)
    (hn : seqs.length = m + 1) :
    (chunks seqs m).map (fun p => p.2.length) = [m, 1] := by
  have ha := chunksGo_of_lt seqs m seqs.length 0 (by omega) hm
  have hminA : 0 + min m (seqs.length - 0) = m := by omega
  rw [hminA] at ha
  have hb := chunksGo_of_lt seqs m (seqs.length - 1) m (by omega) hm
  have hslen : seqs.length - 1 + 1 = seqs.length := by omega
  rw [hslen] at hb
  have hminB : m + min m (seqs.length - m) = seqs.length := by omega
  rw [hminB] at hb
  rw [chunksGo_of_ge seqs m (seqs.length - 1) seqs.length (le_refl _)] at hb
  unfold chunks
  rw [ha, hb]
  simp [List.length_take, List.length_drop]
  omega

/-- Counterexample for C2 — the claim quantifies over every encode
request, but at `req_id = b'abc'` the `int(req_id)` of the line-275 log
raises `ValueError`, caught at lines 296-298: the request is dropped with
nothing registered and no chunk pushed, refuting "if n ≤ m the Ventilator
pushes exactly one chunk `[JobId, payload]`" (here `n = 1 ≤ 5 = m`). -/
theorem c2_nonint_reqid_counterexample :
    ventHandle 0 5 []
        [VFrame.bytes [99], VFrame.items [[65]], VFrame.bytes [97, 98, 99]]
      = ⟨0, [], [], false⟩ := rfl

/-- Claim C2 (amended) — For an encode request of `n` items whose request
id is accepted by Python `int()` (otherwise the `int(req_id)` log call at
line 275 raises `ValueError` and the request is dropped with nothing
registered or dispatched — final conjunct) and with `1 ≤ max_batch_size
= m` (with `m = 0` the partition loop never terminates): if `n ≤ m` the
Ventilator registers the job and pushes exactly one backend chunk
`[JobId, payload]` with no `@` suffix; if `m < n` it pushes
`[JobId @ s_idx, dumps(chunk)]` for the chunks of the partition loop, whose
offsets are `0, m, 2m, …`, whose sizes are positive and at most `m`, and
whose concatenation in emission order is exactly the original batch (no
item duplicated or omitted); in particular `n = m + 1` gives two chunks of
sizes `m` and `1`. -/
theorem c2_batch_partition
    (numReq m : Nat) (cfg client reqId : Bytes) (seqs : List Bytes)
    (hdig : isPyInt reqId = true) (hm : 1 ≤ m) :
    ((seqs.length ≤ m →
      ventHandle numReq m cfg
          [VFrame.bytes client, VFrame.items seqs, VFrame.bytes reqId]
        = ⟨numReq + 1,
           [[client, registerB, natToBytes seqs.length, reqId]],
           [(client ++ hashB :: reqId, encItems seqs)], true⟩)
    ∧ (m < seqs.length →
      ventHandle numReq m cfg
          [VFrame.bytes client, VFrame.items seqs, VFrame.bytes reqId]
        = ⟨numReq + 1,
           [[client, registerB, natToBytes seqs.length, reqId]],
           (chunks seqs m).map
             (fun p => ((client ++ hashB :: reqId) ++ atB :: natToBytes p.1,
                        encItems p.2)),
           true⟩))
    ∧ ((chunks seqs m).map Prod.snd).flatten = seqs
    ∧ (∀ p ∈ chunks seqs m, p.2.length ≤ m ∧ p.2 ≠ [])
    ∧ (∀ i p, (chunks seqs m)[i]? = some p → p.1 = i * m)
    ∧ (seqs.length = m + 1 →
        (chunks seqs m).map (fun p => p.2.length) = [m, 1])
    ∧ (∀ reqId', isPyInt reqId' = false →
        ventHandle numReq m cfg
            [VFrame.bytes client, VFrame.items seqs, VFrame.bytes reqId']
          = ⟨numReq, [], [], false⟩) := by
  refine ⟨⟨?_, ?_⟩, chunks_flatten seqs m hm, chunks_sizes seqs m hm,
    chunks_offsets_get seqs m hm, fun hn => chunks_len_succ seqs m hm hn, ?_⟩
  · intro h
    simp only [ventHandle, VFrame.raw]
    rw [if_neg (encItems_ne_showConfig seqs), if_pos hdig,
      if_neg (not_lt.mpr h)]
  · intro h
    simp only [ventHandle, VFrame.raw]
    rw [if_neg (encItems_ne_showConfig seqs), if_pos hdig, if_pos h]
  · intro reqId' hbad
    simp only [ventHandle, VFrame.raw]
    rw [if_neg (encItems_ne_showConfig seqs),
      if_neg (by rw [hbad]; exact Bool.false_ne_true)]

/-- Witness for C2: a batch of 3 items with `max_batch_size = 2` is
registered once and pushed as two chunks `@0` (2 items) and `@2` (1 item),
of sizes `[2, 1]`; the same batch with the non-`int()` request id `b'abc'`
is dropped whole. -/
theorem c2_batch_partition_witness :
    ventHandle 0 2 []
        [VFrame.bytes [99], VFrame.items [[65], [66], [67]], VFrame.bytes [49]]
      = ⟨1, [[[99], registerB, [51], [49]]],
         [([99, 35, 49, 64, 48], [91, 49, 58, 65, 49, 58, 66]),
          ([99, 35, 49, 64, 50], [91, 49, 58, 67])], true⟩
    ∧ (chunks [[65], [66], [67]] 2).map (fun p => p.2.length) = [2, 1]
    ∧ ventHandle 0 2 []
        [VFrame.bytes [99], VFrame.items [[65], [66], [67]],
         VFrame.bytes [97, 98, 99]]
      = ⟨0, [], [], false⟩ := by
  have h := c2_batch_partition 0 2 [] [99] [49] [[65], [66], [67]]
    (by decide) (by decide)
  exact ⟨(h.1.2 (by decide)).trans rfl, h.2.2.2.2.1 (by decide),
         h.2.2.2.2.2 [97, 98, 99] (by decide)⟩

/-- Claim C6 — An inbound envelope with a frame count other than 3 is
logged and dropped by the Ventilator: the request counter is unchanged,
nothing is sent to the Sink or the backend, the loop does not crash
(`ValueError` is caught), and any subsequent request is handled exactly as
if the malformed one had never arrived. -/
theorem c6_malformed_envelope (numReq m : Nat) (cfg : Bytes)
    (req : List VFrame) (h : req.length ≠ 3) :
    ventHandle numReq m cfg req = ⟨numReq, [], [], false⟩
    ∧ ∀ g, ventHandle (ventHandle numReq m cfg req).numReq m cfg g
        = ventHandle numReq m cfg g := by
  have h1 : ventHandle numReq m cfg req = ⟨numReq, [], [], false⟩ := by
    rcases req with _ | ⟨a, _ | ⟨b, _ | ⟨c, _ | ⟨d, t⟩⟩⟩⟩
    · rfl
    · rfl
    · rfl
    · exact absurd rfl h
    · rfl
  exact ⟨h1, fun g => by rw [h1]⟩

/-- Witness for C6: a two-frame envelope is dropped with no state change,
and a well-formed encode request that follows is served identically. -/
theorem c6_malformed_envelope_witness :
    ventHandle 0 4 [] [VFrame.bytes [99], VFrame.bytes [49]]
      = ⟨0, [], [], false⟩
    ∧ ventHandle (ventHandle 0 4 [] [VFrame.bytes [99], VFrame.bytes [49]]).numReq
        4 [] [VFrame.bytes [99], VFrame.items [[65]], VFrame.bytes [49]]
      = ventHandle 0 4 [] [VFrame.bytes [99], VFrame.items [[65]], VFrame.bytes [49]] := by
  have h := c6_malformed_envelope 0 4 [] [VFrame.bytes [99], VFrame.bytes [49]]
    (by decide)
  exact ⟨h.1, h.2 [VFrame.bytes [99], VFrame.items [[65]], VFrame.bytes [49]]⟩

/-- Counterexample for C7 — the claim quantifies over every `SHOW_CONFIG`
envelope, but at `req_id = b'abc'` the `int(req_id)` of the line-261 log
raises `ValueError`, caught at lines 296-298: nothing is forwarded to the
Sink, refuting "the Ventilator forwards `[client_addr, SHOW_CONFIG,
config_json, req_id]` to the Sink". -/
theorem c7_nonint_reqid_counterexample :
    ventHandle 7 4 [123]
        [VFrame.bytes [99], VFrame.bytes showConfigB, VFrame.bytes [97, 98, 99]]
      = ⟨7, [], [], false⟩ := rfl

/-- Claim C7 (amended) — On a `SHOW_CONFIG` payload whose request id is
accepted by Python `int()` (otherwise the `int(req_id)` log call at line
261 raises `ValueError` and the request is dropped with nothing forwarded
— final conjunct) the Ventilator forwards exactly
`[client_addr, SHOW_CONFIG, config_json, req_id]` to the Sink over the
pair socket, dispatches nothing to the backend and leaves the request
counter alone (it owns no client-facing publisher, so it emits no reply
itself); the Sink's control handler then publishes exactly
`[client_addr, config_json, req_id]` (after the slow-joiner sleep of line
380, which has no message-level effect) without touching its state. -/
theorem c7_show_config_flow (numReq m : Nat) (cfg client reqId : Bytes)
    (s : SinkSt) (hdig : isPyInt reqId = true) :
    ventHandle numReq m cfg
        [VFrame.bytes client, VFrame.bytes showConfigB, VFrame.bytes reqId]
      = ⟨numReq, [[client, showConfigB, cfg, reqId]], [], true⟩
    ∧ handleFrontend s client showConfigB cfg reqId
      = (s, [[Frame.bytes client, Frame.bytes cfg, Frame.bytes reqId]])
    ∧ (∀ reqId', isPyInt reqId' = false →
        ventHandle numReq m cfg
            [VFrame.bytes client, VFrame.bytes showConfigB,
             VFrame.bytes reqId']
          = ⟨numReq, [], [], false⟩) := by
  refine ⟨?_, ?_, ?_⟩
  · simp only [ventHandle, VFrame.raw]
    rw [if_pos trivial, if_pos hdig]
  · simp only [handleFrontend]
    rw [if_neg (show ¬ showConfigB = registerB by decide), if_pos trivial]
  · intro reqId' hbad
    simp only [ventHandle, VFrame.raw]
    rw [if_pos trivial, if_neg (by rw [hbad]; exact Bool.false_ne_true)]

/-- Witness for C7 at a concrete client, request id, config snapshot and
Sink state, including the dropped non-`int()` request id `b'abc'`. -/
theorem c7_show_config_flow_witness :
    ventHandle 7 4 [123]
        [VFrame.bytes [99], VFrame.bytes showConfigB, VFrame.bytes [49]]
      = ⟨7, [[[99], showConfigB, [123], [49]]], [], true⟩
    ∧ handleFrontend ⟨[([97], 1)], [], [([97], 2)]⟩ [99] showConfigB [123] [49]
      = (⟨[([97], 1)], [], [([97], 2)]⟩,
         [[Frame.bytes [99], Frame.bytes [123], Frame.bytes [49]]])
    ∧ ventHandle 7 4 [123]
        [VFrame.bytes [99], VFrame.bytes showConfigB, VFrame.bytes [97, 98, 99]]
      = ⟨7, [], [], false⟩ := by
  have h := c7_show_config_flow 7 4 [123] [99] [49]
    ⟨[([97], 1)], [], [([97], 2)]⟩ (by decide)
  exact ⟨h.1, h.2.1, h.2.2 [97, 98, 99] (by decide)⟩

/-- Claim C8 — Handling a `SHOW_CONFIG` control message in the Sink leaves
all three job tables exactly as they were: the handler returns the state
unchanged together with the single published reply. -/
theorem c8_show_config_frame (s : SinkSt) (c info r : Bytes) :
    handleFrontend s c showConfigB info r
      = (s, [[Frame.bytes c, Frame.bytes info, Frame.bytes r]])
    ∧ (handleFrontend s c showConfigB info r).1.pc = s.pc
    ∧ (handleFrontend s c showConfigB info r).1.pr = s.pr
    ∧ (handleFrontend s c showConfigB info r).1.jc = s.jc := by
  have h : handleFrontend s c showConfigB info r
      = (s, [[Frame.bytes c, Frame.bytes info, Frame.bytes r]]) := by
    simp only [handleFrontend]
    rw [if_neg (show ¬ showConfigB = registerB by decide), if_pos trivial]
  exact ⟨h, by rw [h], by rw [h], by rw [h]⟩

/-- Counterexample for C10 — `send_ndarray` sends four frames, not three:
the worker's default `req_id=b''` is appended as a trailing empty frame. -/
theorem c10_frames_counterexample :
    (send_ndarray [99, 35, 49] [[1]] []).length = 4
    ∧ (send_ndarray [99, 35, 49] [[1]] []).length ≠ 3 := by
  exact ⟨rfl, by decide⟩

/-- Claim C10 (amended) — The result message a Worker sends to the Sink is
the four-frame multipart `[chunk_id, tensor_header_json, tensor_bytes,
b'']` produced by `send_ndarray` with its default empty `req_id`; the
header is the JSON object `{dtype, shape}` of the tensor; and the Sink
consumes the message through its first three frames only
(`msg[0], msg[1], msg[2]`), ignoring the trailing empty frame. -/
theorem c10_worker_result_frames (cid : Bytes) (X : Tensor) (s : SinkSt) :
    send_ndarray cid X []
      = [Frame.bytes cid, Frame.json (mdOf X), Frame.tensor X, Frame.bytes []]
    ∧ (send_ndarray cid X []).length = 4
    ∧ mdOf X = ⟨"float32", [X.length, rowDim X]⟩
    ∧ handleWorkerMsg s (send_ndarray cid X []) = handleWorkerCore s cid X := by
  exact ⟨rfl, rfl, rfl, rfl⟩

/-- Claim C3 (code evaluated at the failing input) — A partial result that
reaches a fresh Sink before its Job's `NEW_JOB` registration is appended
to the defaultdict tables but then crashes the Sink loop: the progress log
of line 355 reads the plain dict `job_checksum[job_id]`, raising an
uncaught `KeyError`; the Job is never completed. -/
theorem c3_early_partial_keyerror :
    handleWorkerMsg ⟨[], [], []⟩
        (send_ndarray [99, 35, 49, 64, 48] [[7]] [])
      = .error (.keyError [99, 35, 49]) := rfl

/-- Counterexample for C4 — a one-chunk job is genuinely delivered (all
three tables drop it), but the claim's "any late partial arriving for the
already-delivered Job is ignored or logged without failing" is false: the
very next partial for the same (now unregistered) Job raises the uncaught
`KeyError` of the progress log, crashing the Sink loop. -/
theorem c4_late_partial_counterexample :
    handleWorkerCore ⟨[], [], [([99, 35, 49], 1)]⟩ [99, 35, 49] [[7]]
      = .ok ⟨⟨[], [], []⟩, ([99, 35, 49], 1, 1),
             [([99, 35, 49], [([[7]], none)])],
             [send_ndarray [99] [[7]] [49]]⟩
    ∧ handleWorkerCore ⟨[], [], []⟩ [99, 35, 49] [[7]]
      = .error (.keyError [99, 35, 49]) :=
  ⟨rfl, rfl⟩

/-- Claim C4 (amended) — Delivery drops the Job from all three Sink tables
(no entry persists), and a late partial for the already-delivered Job is
never re-delivered: since the Job is gone from `job_checksum`, the next
partial for it makes the worker-output handler raise `KeyError` rather
than deliver anything. -/
theorem c4_delivery_drops_tables
    (s : SinkSt) (cid : Bytes) (X : Tensor) (out : SinkStep)
    (hok : handleWorkerCore s cid X = .ok out) :
    (∀ j ∈ out.finished.map Prod.fst,
      alGet? out.st.pc j = none ∧ alGet? out.st.pr j = none ∧
      alGet? out.st.jc j = none)
    ∧ (∀ (s2 : SinkSt) (cid2 : Bytes) (X2 : Tensor),
        alGet? s2.jc (chunkJob cid2) = none →
        handleWorkerCore s2 cid2 X2 = .error (.keyError (chunkJob cid2))) := by
  constructor
  · intro j hj
    simp only [handleWorkerCore] at hok
    split at hok
    · simp at hok
    · split at hok
      · simp at hok
      · rename_i fin hscan
        split at hok
        · simp at hok
        · rename_i st' pubs hdel
          simp only [Except.ok.injEq] at hok
          rw [← hok] at hj ⊢
          exact deliverAll_erases fin _ st' pubs hdel j hj
  · intro s2 cid2 X2 hnone
    simp only [handleWorkerCore, hnone]

/-- Witness for the amended C4: the delivered job of the counterexample is
absent from every table of the post-delivery state, and a late partial for
it errors instead of delivering. -/
theorem c4_delivery_drops_tables_witness :
    (alGet? (⟨[], [], []⟩ : SinkSt).pc [99, 35, 49] = none
      ∧ alGet? (⟨[], [], []⟩ : SinkSt).pr [99, 35, 49] = none
      ∧ alGet? (⟨[], [], []⟩ : SinkSt).jc [99, 35, 49] = none)
    ∧ handleWorkerCore ⟨[], [], []⟩ [99, 35, 49] [[7]]
      = .error (.keyError (chunkJob [99, 35, 49])) := by
  have h := c4_delivery_drops_tables ⟨[], [], [([99, 35, 49], 1)]⟩
    [99, 35, 49] [[7]]
    ⟨⟨[], [], []⟩, ([99, 35, 49], 1, 1),
     [([99, 35, 49], [([[7]], none)])],
     [send_ndarray [99] [[7]] [49]]⟩ rfl
  exact ⟨h.1 [99, 35, 49] (by decide),
         h.2 ⟨[], [], []⟩ [99, 35, 49] [[7]] rfl⟩

/-- One worker-output step preserves an overflow (`expected < received`)
at job `j`: `j` is never in the finished list, its `job_checksum` entry
survives unchanged, its `pending_checksum` entry only grows, and when the
arriving partial is for `j` itself the collect log records the
overflowing `received/expected` pair. -/
theorem handleWorkerCore_overflow_step
    (s : SinkSt) (j : Bytes) (e r : Nat) (cid : Bytes) (X : Tensor)
    (out : SinkStep)
    (hje : alGet? s.jc j = some e) (hjr : alGet? s.pc j = some r)
    (hlt : e < r) (hok : handleWorkerCore s cid X = .ok out) :
    j ∉ out.finished.map Prod.fst
    ∧ alGet? out.st.jc j = some e
    ∧ (∃ r', alGet? out.st.pc j = some r' ∧ e < r')
    ∧ (chunkJob cid = j →
        out.logE = (j, r + X.length, e) ∧ e < r + X.length) := by
  simp only [handleWorkerCore] at hok
  split at hok
  · simp at hok
  · rename_i e2 hreg2
    split at hok
    · simp at hok
    · rename_i fin hscan
      split at hok
      · simp at hok
      · rename_i st' pubs hdel
        simp only [Except.ok.injEq] at hok
        have hpcval : ∃ r', alGet? (alUpd s.pc (chunkJob cid)
            (fun w => w.getD 0 + X.length)) j = some r' ∧ e < r' := by
          by_cases hj : chunkJob cid = j
          · refine ⟨r + X.length, ?_, by omega⟩
            rw [hj, alGet?_alUpd_self, hjr]
            rfl
          · rw [alGet?_alUpd_ne s.pc (chunkJob cid) j _ (fun he => hj he.symm)]
            exact ⟨r, hjr, hlt⟩
        obtain ⟨r', hr', hlt'⟩ := hpcval
        have hnotfin : j ∉ fin.map Prod.fst := by
          intro hmem
          obtain ⟨kv, hkvfin, hkv1⟩ := List.mem_map.mp hmem
          have hsnd := (scanFinished_mem s.jc _ _ fin hscan kv hkvfin).2
          rw [hkv1] at hsnd
          rw [alGetD, hr', alGetD, hje] at hsnd
          simp at hsnd
          omega
        have hlk := deliverAll_lookup_ne fin _ st' pubs hdel j hnotfin
        refine ⟨?_, ?_, ?_, ?_⟩
        · rw [← hok]; exact hnotfin
        · rw [← hok]
          show alGet? st'.jc j = some e
          rw [hlk.2.2]; exact hje
        · rw [← hok]
          exact ⟨r', by show alGet? st'.pc j = some r'; rw [hlk.1]; exact hr',
                 hlt'⟩
        · intro hj
          rw [← hok]
          refine ⟨?_, by omega⟩
          show (chunkJob cid,
            alGetD (alUpd s.pc (chunkJob cid) (fun w => w.getD 0 + X.length))
              (chunkJob cid) 0, e2) = (j, r + X.length, e)
          have he2 : e2 = e := by
            rw [hj] at hreg2
            rw [hje] at hreg2
            exact (Option.some.inj hreg2).symm
          have hval : alGetD (alUpd s.pc (chunkJob cid)
              (fun w => w.getD 0 + X.length)) (chunkJob cid) 0
              = r + X.length := by
            rw [alGetD, alGet?_alUpd_self, hj, hjr]
            rfl
          rw [hval, he2, hj]

/-- A partial for every pending job of an already-overflowed table run:
once `expected < received` holds for `j`, any further successful
worker-output step keeps `j` undelivered and the overflow intact (the
received count only grows, the expected count is untouched while `j` is
undelivered). -/
theorem runWorkerMsgs_overflow_not_delivered (j : Bytes) :
    ∀ (msgs : List (Bytes × Tensor)) (s0 : SinkSt) (e0 r0 : Nat),
      alGet? s0.jc j = some e0 → alGet? s0.pc j = some r0 → e0 < r0 →
      ∀ s' ks, runWorkerMsgs s0 msgs = .ok (s', ks) → j ∉ ks := by
  intro msgs
  induction msgs with
  | nil =>
    intro s0 e0 r0 h1 h2 h3 s' ks h
    rw [runWorkerMsgs] at h
    simp only [Except.ok.injEq, Prod.mk.injEq] at h
    rw [← h.2]
    simp
  | cons msg rest ih =>
    intro s0 e0 r0 h1 h2 h3 s' ks h
    obtain ⟨cid, X⟩ := msg
    rw [runWorkerMsgs] at h
    split at h
    · simp at h
    · rename_i out hout
      split at h
      · simp at h
      · rename_i s2 ks2 hrun
        simp only [Except.ok.injEq, Prod.mk.injEq] at h
        have hstep := handleWorkerCore_overflow_step s0 j e0 r0 cid X out
          h1 h2 h3 hout
        obtain ⟨r', hr', hlt'⟩ := hstep.2.2.1
        have hrest := ih out.st e0 r' hstep.2.1 hr' hlt' s2 ks2 hrun
        rw [← h.2]
        intro hmem
        rcases List.mem_append.mp hmem with hm | hm
        · exact hstep.1 hm
        · exact hrest hm

/-- The violating step itself: a partial for the registered job `j` whose
rows push the received count strictly above the expected count `e` (from
any prior count, including none).  The collect log of line 355 records
the overflowing `(received, expected)` pair, `j` is not in the finished
list of this step, and the overflow is established in the post state. -/
theorem handleWorkerCore_overflow_create
    (s : SinkSt) (j cid : Bytes) (e : Nat) (X : Tensor) (out : SinkStep)
    (hcid : chunkJob cid = j)
    (hje : alGet? s.jc j = some e)
    (hover : e < alGetD s.pc j 0 + X.length)
    (hok : handleWorkerCore s cid X = .ok out) :
    out.logE = (j, alGetD s.pc j 0 + X.length, e)
    ∧ j ∉ out.finished.map Prod.fst
    ∧ alGet? out.st.jc j = some e
    ∧ (∃ r', alGet? out.st.pc j = some r' ∧ e < r') := by
  simp only [handleWorkerCore] at hok
  rw [hcid] at hok
  split at hok
  · simp at hok
  · rename_i e2 hreg2
    split at hok
    · simp at hok
    · rename_i fin hscan
      split at hok
      · simp at hok
      · rename_i st' pubs hdel
        simp only [Except.ok.injEq] at hok
        have he2 : e2 = e := by
          rw [hje] at hreg2
          exact (Option.some.inj hreg2).symm
        have hval : alGetD (alUpd s.pc j (fun w => w.getD 0 + X.length)) j 0
            = alGetD s.pc j 0 + X.length := by
          rw [alGetD, alGet?_alUpd_self]
          rfl
        have hnotfin : j ∉ fin.map Prod.fst := by
          intro hmem
          obtain ⟨kv, hkvfin, hkv1⟩ := List.mem_map.mp hmem
          have hsnd := (scanFinished_mem s.jc _ _ fin hscan kv hkvfin).2
          rw [hkv1, hval] at hsnd
          have hjce : alGetD s.jc j 0 = e := by
            rw [alGetD, hje]
            rfl
          rw [hjce] at hsnd
          have hov : e < alGetD s.pc j 0 + X.length := hover
          omega
        have hlk := deliverAll_lookup_ne fin _ st' pubs hdel j hnotfin
        refine ⟨?_, ?_, ?_, ?_⟩
        · rw [← hok]
          show (j, alGetD (alUpd s.pc j (fun w => w.getD 0 + X.length)) j 0,
            e2) = (j, alGetD s.pc j 0 + X.length, e)
          rw [hval, he2]
        · rw [← hok]; exact hnotfin
        · rw [← hok]
          show alGet? st'.jc j = some e
          rw [hlk.2.2]; exact hje
        · rw [← hok]
          refine ⟨alGetD s.pc j 0 + X.length, ?_, hover⟩
          show alGet? st'.pc j = some (alGetD s.pc j 0 + X.length)
          rw [hlk.1, alGet?_alUpd_self]
          rfl

/-- Claim C5 — For every partial result whose row count would push a
registered Job's received count strictly above its expected count `e`:
the step that processes it logs the overflowing pair
`(received + rows, e)` with `e <` that count, refuses to mark the Job
complete (the Job is not in that step's finished list), and the Job is
never delivered by the completion scan in the entire run of worker-output
steps beginning with the violating partial — the equality-only test can
never hold again since the received count only grows. -/
theorem c5_overflow_never_delivered
    (s : SinkSt) (j cid : Bytes) (e : Nat) (X : Tensor)
    (hcid : chunkJob cid = j)
    (hje : alGet? s.jc j = some e)
    (hover : e < alGetD s.pc j 0 + X.length) :
    (∀ out, handleWorkerCore s cid X = .ok out →
      out.logE = (j, alGetD s.pc j 0 + X.length, e)
      ∧ e < alGetD s.pc j 0 + X.length
      ∧ j ∉ out.finished.map Prod.fst
      ∧ alGet? out.st.jc j = some e
      ∧ (∃ r', alGet? out.st.pc j = some r' ∧ e < r'))
    ∧ (∀ msgs s' ks, runWorkerMsgs s ((cid, X) :: msgs) = .ok (s', ks) →
        j ∉ ks) := by
  constructor
  · intro out hok
    have h := handleWorkerCore_overflow_create s j cid e X out hcid hje
      hover hok
    exact ⟨h.1, hover, h.2.1, h.2.2.1, h.2.2.2⟩
  · intro msgs s' ks h
    rw [runWorkerMsgs] at h
    split at h
    · simp at h
    · rename_i out hout
      split at h
      · simp at h
      · rename_i s2 ks2 hrun
        simp only [Except.ok.injEq, Prod.mk.injEq] at h
        have hc := handleWorkerCore_overflow_create s j cid e X out hcid hje
          hover hout
        obtain ⟨r', hr', hlt'⟩ := hc.2.2.2
        have hrest := runWorkerMsgs_overflow_not_delivered j msgs out.st e r'
          hc.2.2.1 hr' hlt' s2 ks2 hrun
        rw [← h.2]
        intro hmem
        rcases List.mem_append.mp hmem with hm | hm
        · exact hc.2.1 hm
        · exact hrest hm

/-- Witness for C5: job `b'j'` expects 2 rows with 1 already received; a
2-row partial arrives and would push the count to 3 > 2: the collect log
records `(3/2)`, the job is not finished in that step, the overflow is
established, and the job is delivered in no run starting with that
partial. -/
theorem c5_overflow_never_delivered_witness :
    ((⟨⟨[([106], 3)], [([106], [([[1]], none), ([[8], [9]], none)])],
        [([106], 2)]⟩,
       ([106], 3, 2), [], []⟩ : SinkStep).logE = ([106], 1 + 2, 2)
      ∧ 2 < 1 + 2
      ∧ ([106] : Bytes) ∉
          (⟨⟨[([106], 3)], [([106], [([[1]], none), ([[8], [9]], none)])],
             [([106], 2)]⟩,
            ([106], 3, 2), [], []⟩ : SinkStep).finished.map Prod.fst
      ∧ alGet? (⟨⟨[([106], 3)],
          [([106], [([[1]], none), ([[8], [9]], none)])], [([106], 2)]⟩,
          ([106], 3, 2), [], []⟩ : SinkStep).st.jc [106] = some 2
      ∧ (∃ r', alGet? (⟨⟨[([106], 3)],
          [([106], [([[1]], none), ([[8], [9]], none)])], [([106], 2)]⟩,
          ([106], 3, 2), [], []⟩ : SinkStep).st.pc [106] = some r' ∧ 2 < r'))
    ∧ ([106] : Bytes) ∉ ([] : List Bytes) := by
  have h := c5_overflow_never_delivered
    ⟨[([106], 1)], [([106], [([[1]], none)])], [([106], 2)]⟩
    [106] [106] 2 [[8], [9]] rfl rfl (by decide)
  constructor
  · exact h.1
      ⟨⟨[([106], 3)], [([106], [([[1]], none), ([[8], [9]], none)])],
        [([106], 2)]⟩,
       ([106], 3, 2), [], []⟩ rfl
  · exact h.2 []
      ⟨[([106], 3)], [([106], [([[1]], none), ([[8], [9]], none)])],
       [([106], 2)]⟩ [] rfl
